import Mathlib

/-!
Shallow embedding of `bot2.py`, an open-interest / market-cap alert bot.
Numbers that Python holds as floats are modelled as rationals (`ℚ`);
Python dicts over string keys are modelled as association lists with
Python's insertion semantics (update in place when the key exists,
append otherwise).  Each definition below is translated from the source
function named in its doc comment.
-/

namespace Bot2

/-- Python dict assignment `d[k] = v`: if the key is already present its
value is updated in place, otherwise the pair is appended at the end. -/
def dictInsert (k : String) (v : α) : List (String × α) → List (String × α)
  | [] => [(k, v)]
  | (k', v') :: rest => if k' = k then (k, v) :: rest else (k', v') :: dictInsert k v rest

/-- Python dict lookup `d[k]` (first — and, for a genuine dict, only —
binding of the key). -/
def dictLookup (k : String) : List (String × α) → Option α
  | [] => none
  | (k', v') :: rest => if k' = k then some v' else dictLookup k rest

/-- Python membership test `k in d`. -/
def dictMem (k : String) (d : List (String × α)) : Bool :=
  (dictLookup k d).isSome

/-- Python `str.upper()` restricted to the ASCII uppercasing the ticker
symbols in this program use. -/
def pyUpper (s : String) : String :=
  ⟨s.data.map Char.toUpper⟩

/-- Module-level constant `MARKET_CAP_LIMIT = 100_000_000` (line 11). -/
def MARKET_CAP_LIMIT : ℚ := 100000000

/-- Module-level constant for the 25% alert threshold (line 12). -/
def alertThreshold : ℚ := 1 / 4

/-- One element of the decoded CoinGecko response list, with the three
fields `get_market_data` reads; a missing field is `none`
(`coin.get("symbol", "")` defaults a missing symbol to `""`). -/
structure Coin where
  symbol : Option String
  market_cap : Option ℚ
  name : Option String
deriving DecidableEq

/-- The value stored per retained coin: `{"name": ..., "market_cap": ...}`
(lines 51-54). -/
structure CoinData where
  name : String
  market_cap : ℚ
deriving DecidableEq

/-- Loop body of `get_market_data` (lines 43-54): uppercase the symbol,
skip when the symbol is empty or the market cap is missing, and store the
coin when `0 < market_cap < MARKET_CAP_LIMIT`. -/
def coinStep (coins : List (String × CoinData)) (coin : Coin) : List (String × CoinData) :=
  let symbol := pyUpper (coin.symbol.getD "")
  match coin.market_cap with
  | none => coins
  | some mc =>
    if symbol = "" then coins
    else if 0 < mc ∧ mc < MARKET_CAP_LIMIT then
      dictInsert symbol ⟨coin.name.getD "Unknown", mc⟩ coins
    else coins

/-- Parsing/filter portion of `get_market_data` (lines 42-57), applied to
the already-decoded response list `data`.  The surrounding network fetch
and its error handling (which yield an empty mapping) are the caller's
input here. -/
def get_market_data (data : List Coin) : List (String × CoinData) :=
  data.foldl coinStep []

/-- The quote-currency suffix `"USDT"` as a character list. -/
def usdt : List Char := ['U', 'S', 'D', 'T']

/-- Python `s.replace("USDT", "")` on a character list: remove every
non-overlapping occurrence of `"USDT"`, scanning left to right
(line 112, `base_coin = sym.replace("USDT", "")`). -/
def pyReplaceUSDT : List Char → List Char
  | c :: c1 :: c2 :: c3 :: rest =>
    if [c, c1, c2, c3] = usdt then pyReplaceUSDT rest
    else c :: pyReplaceUSDT (c1 :: c2 :: c3 :: rest)
  | c :: cs => c :: pyReplaceUSDT cs
  | [] => []

/-- Symbol normalization applied in `get_all_bybit_oi` (line 112),
as a `String` function. -/
def normalizeSym (s : String) : String :=
  ⟨pyReplaceUSDT s.data⟩

/-- Whether a character list contains an occurrence of `"USDT"`. -/
def hasUSDT : List Char → Bool
  | c :: c1 :: c2 :: c3 :: rest =>
    decide ([c, c1, c2, c3] = usdt) || hasUSDT (c1 :: c2 :: c3 :: rest)
  | _ :: cs => hasUSDT cs
  | [] => false

/-- Outcome of one per-symbol open-interest request in phase 2 of
`get_all_bybit_oi` (lines 99-119): a transport-level exception during the
request/parse (`except` branch), a response whose `retCode` is non-zero, a
response whose `result.list` is empty, or a successful response carrying
`openInterest` and `openInterestUsd` figures. -/
inductive OiResponse where
  | transportError
  | apiError
  | emptyList
  | ok (openInterest : ℚ) (openInterestUsd : ℚ)
deriving DecidableEq

/-- Whether a per-symbol response stores an entry. -/
def OiResponse.isOk : OiResponse → Bool
  | .ok _ _ => true
  | _ => false

/-- Observable event of phase 2: an HTTP request to the open-interest
endpoint for a symbol, or a `time.sleep` of the given many milliseconds. -/
inductive Ev where
  | request (sym : String)
  | sleep (ms : ℕ)
deriving DecidableEq

/-- One iteration of the inner loop of phase 2 (lines 98-119), returning
the updated accumulator `oi_data` and the events of the iteration.
On success and on an empty result list the iteration ends with
`time.sleep(0.12)` (line 115); when `retCode != 0` the `continue` on
line 106 jumps past that sleep; a transport exception is caught and
followed by `time.sleep(0.5)` (line 119). -/
def symStep (fetch : String → OiResponse) (acc : List (String × ℚ)) (sym : String) :
    List (String × ℚ) × List Ev :=
  match fetch sym with
  | .transportError => (acc, [.request sym, .sleep 500])
  | .apiError => (acc, [.request sym])
  | .emptyList => (acc, [.request sym, .sleep 120])
  | .ok _ usd => (dictInsert (normalizeSym sym) usd acc, [.request sym, .sleep 120])

/-- The two nested loops of phase 2 (lines 96-122) flattened into one
pass.  `for i in range(0, len(symbols), batch_size)` with the inner
`for sym in batch` visits the symbols in their list order; the inter-batch
`time.sleep(1)` (lines 121-122) runs exactly when `i + batch_size <
len(symbols)`, i.e. after every 10th symbol provided further symbols
remain.  The counter `k` is the number of symbols still to process in the
current batch after the present one; it starts at 9 and resets to 9 at
each batch boundary. -/
def phase2Loop (fetch : String → OiResponse) :
    List String → ℕ → List (String × ℚ) → List (String × ℚ) × List Ev
  | [], _, acc => (acc, [])
  | sym :: rest, k, acc =>
    let p := symStep fetch acc sym
    let boundary : List Ev := if k = 0 ∧ rest ≠ [] then [.sleep 1000] else []
    let q := phase2Loop fetch rest (if k = 0 then 9 else k - 1) p.1
    (q.1, p.2 ++ boundary ++ q.2)

/-- Phase 2 of `get_all_bybit_oi` (lines 93-125): sequential per-symbol
open-interest fetch over the discovered `symbols`, starting from the empty
`oi_data = {}`; `fetch` gives each symbol's response.  Returns the final
mapping and the event trace. -/
def get_all_bybit_oi_phase2 (fetch : String → OiResponse) (symbols : List String) :
    List (String × ℚ) × List Ev :=
  phase2Loop fetch symbols 9 []

/-- Scans an event trace and checks that between every pair of consecutive
requests some sleep of at least 120 ms occurs.  The flag records whether a
sufficient sleep has been seen since the previous request (initially true:
no previous request yet). -/
def gapsOkAux : Bool → List Ev → Bool
  | _, [] => true
  | ok, .request _ :: rest => ok && gapsOkAux false rest
  | ok, .sleep ms :: rest => gapsOkAux (ok || decide (120 ≤ ms)) rest

/-- Rate-limit property of an event trace: every pair of consecutive
requests is separated by a sleep of at least 120 ms. -/
def gapsOk (evs : List Ev) : Bool :=
  gapsOkAux true evs

/-- The requests of an event trace, in order. -/
def requestsOf (evs : List Ev) : List String :=
  evs.filterMap fun e =>
    match e with
    | .request sym => some sym
    | .sleep _ => none

/-- One alert tuple `(symbol, ratio, mc, oi)` appended on line 150. -/
structure Alert where
  symbol : String
  ratio : ℚ
  mc : ℚ
  oi : ℚ
deriving DecidableEq

/-- Loop body of the evaluation loop of `check_oi_ratio` (lines 142-150):
for a caps entry `(symbol, coin)`, if the symbol is a key of `oi_data`,
and `mc = coin["market_cap"]` is positive (the `mc <= 0` guard on
line 146 skips the rest), compute `ratio = oi / mc` and append an alert
when `ratio > threshold`. -/
def alertStep (oiData : List (String × ℚ)) (threshold : ℚ)
    (alerts : List Alert) (p : String × CoinData) : List Alert :=
  match dictLookup p.1 oiData with
  | none => alerts
  | some oi =>
    let mc := p.2.market_cap
    if mc ≤ 0 then alerts
    else if threshold < oi / mc then alerts ++ [⟨p.1, oi / mc, mc, oi⟩]
    else alerts

/-- The evaluation loop of `check_oi_ratio` (lines 141-150), parameterised
by the threshold (the source uses the module constant `alertThreshold`). -/
def computeAlerts (caps : List (String × CoinData)) (oiData : List (String × ℚ))
    (threshold : ℚ) : List Alert :=
  caps.foldl (alertStep oiData threshold) []

/-- Insert an alert into a list already sorted descending by ratio,
before the first element of ratio less than or equal to its own, so that
earlier elements keep priority on ties. -/
def insertDesc (a : Alert) : List Alert → List Alert
  | [] => [a]
  | b :: rest => if b.ratio ≤ a.ratio then a :: b :: rest else b :: insertDesc a rest

/-- The sort on line 153, `alerts.sort(key=lambda x: x[1], reverse=True)`:
Python's stable sort, descending by ratio.  A stable sort by a total
preorder has a unique result, so this insertion sort computes exactly the
list produced by the source. -/
def sortDesc : List Alert → List Alert
  | [] => []
  | a :: rest => insertDesc a (sortDesc rest)

/-- The alert sequence of `check_oi_ratio` after evaluation and sorting
(lines 141-153). -/
def evalSorted (caps : List (String × CoinData)) (oiData : List (String × ℚ))
    (threshold : ℚ) : List Alert :=
  sortDesc (computeAlerts caps oiData threshold)

/-- Formatting/delivery step of `check_oi_ratio` (lines 155-167): with an
empty alert list no message exists (`if alerts:` fails and nothing is
sent); otherwise the message renders the slice `alerts[:10]` of the sorted
list.  The textual rendering of each alert line is abstracted to the alert
record itself, since the claims concern which alerts appear, not their
string form. -/
def renderMessage (alerts : List Alert) : Option (List Alert) :=
  if alerts.isEmpty then none else some (alerts.take 10)

/-- Outcome of one run of `check_oi_ratio` (lines 128-167). -/
inductive RunOutcome where
  | skippedNoMc
  | skippedNoOi
  | noAlerts
  | sent (msg : List Alert)
deriving DecidableEq

/-- One run of `check_oi_ratio` (lines 128-167) given the two fetched
mappings: `if not mc_data: return` (lines 134-136), `if not oi_data:
return` (lines 137-139), then evaluate, sort, and either send the rendered
message or report that no coin exceeded the threshold. -/
def check_oi_ratio (mcData : List (String × CoinData)) (oiData : List (String × ℚ))
    (threshold : ℚ) : RunOutcome :=
  if mcData.isEmpty then .skippedNoMc
  else if oiData.isEmpty then .skippedNoOi
  else
    match renderMessage (evalSorted mcData oiData threshold) with
    | none => .noAlerts
    | some m => .sent m

/-- The message a run hands to the notification channel, if any. -/
def deliveredMessage : RunOutcome → Option (List Alert)
  | .sent m => some m
  | _ => none

/-- Python falsiness of an optional environment string: `os.getenv`
returns `None` when the variable is absent, and `not s` is also true for
the empty string. -/
def pyFalsy : Option String → Bool
  | none => true
  | some s => s == ""

/-- Errors module execution can raise before the bot's first run. -/
inductive StartupError where
  | environmentError
  | nameError
deriving DecidableEq

/-- Module-level startup of `bot2.py` as a function of the two
environment secrets: the validation on lines 15-16 raises
`EnvironmentError` when `not TELEGRAM_TOKEN or not CHAT_ID`; otherwise
execution proceeds past the function definitions to line 183,
`if _name_ == "_main_":`, where the name `_name_` is unbound (the
standard guard would be `__name__`), so a `NameError` is raised
unconditionally.  The `Bot(...)` construction on line 18 is an external
collaborator and is assumed not to raise. -/
def startup (token chatId : Option String) : Except StartupError Unit :=
  if pyFalsy token || pyFalsy chatId then .error .environmentError
  else .error .nameError

/-- Fetch behaviour where every symbol's response has `retCode != 0`. -/
def fetchApiError : String → OiResponse := fun _ => OiResponse.apiError

/-- Fetch behaviour where every symbol's response has an empty result
list. -/
def fetchEmptyList : String → OiResponse := fun _ => OiResponse.emptyList

/-- Example caps mapping with a single coin of market cap 5. -/
def capsW : List (String × CoinData) := [("AAA", ⟨"Aaa", 5⟩)]

/-- Example open-interest mapping pairing with `capsW` (ratio 2/5). -/
def oiW : List (String × ℚ) := [("AAA", 2)]

/-- Example caps mapping with two coins (ratios 2/5 and 1 against
`oiTwo`). -/
def capsTwo : List (String × CoinData) := [("AAA", ⟨"Aaa", 5⟩), ("BBB", ⟨"Bbb", 2⟩)]

/-- Example open-interest mapping pairing with `capsTwo`. -/
def oiTwo : List (String × ℚ) := [("AAA", 2), ("BBB", 2)]

/-- Example caps mapping that violates the market-cap positivity
invariant on its first entry. -/
def capsG : List (String × CoinData) := [("ZRO", ⟨"Zero", 0⟩), ("AAA", ⟨"Aaa", 5⟩)]

/-- Example open-interest mapping pairing with `capsG`. -/
def oiG : List (String × ℚ) := [("ZRO", 3), ("AAA", 2)]

/-- Example decoded CoinGecko list: one qualifying coin, one with a
missing symbol, one over the market-cap ceiling. -/
def coinsW : List Coin :=
  [⟨some "btc", some 5, some "Bitcoin"⟩, ⟨none, some 3, none⟩,
   ⟨some "big", some 200000000, some "Big"⟩]

theorem dictLookup_dictInsert (k k' : String) (v : α) (l : List (String × α)) :
    dictLookup k (dictInsert k' v l) = if k' = k then some v else dictLookup k l := by
  induction l with
  | nil => simp [dictInsert, dictLookup]
  | cons p rest ih =>
    obtain ⟨k2, v2⟩ := p
    by_cases h2 : k2 = k'
    · subst h2
      by_cases h3 : k2 = k <;> simp [dictInsert, dictLookup, h3]
    · by_cases h3 : k2 = k
      · subst h3
        have h4 : ¬ k' = k2 := fun h => h2 h.symm
        simp [dictInsert, dictLookup, h2, h4]
      · simp [dictInsert, dictLookup, h2, h3, ih]

theorem dictMem_dictInsert (k k' : String) (v : α) (l : List (String × α)) :
    dictMem k (dictInsert k' v l) = true ↔ k' = k ∨ dictMem k l = true := by
  simp only [dictMem, dictLookup_dictInsert]
  by_cases h : k' = k <;> simp [h]

theorem dictMem_of_mem {k : String} {v : α} {l : List (String × α)}
    (h : (k, v) ∈ l) : dictMem k l = true := by
  induction l with
  | nil => cases h
  | cons p rest ih =>
    obtain ⟨k2, v2⟩ := p
    rcases List.mem_cons.1 h with h1 | h1
    · cases h1
      simp [dictMem, dictLookup]
    · by_cases h2 : k2 = k
      · simp [dictMem, dictLookup, h2]
      · simpa [dictMem, dictLookup, h2] using ih h1

theorem dictLookup_of_nodup {k : String} {v : α} {l : List (String × α)}
    (hnd : (l.map Prod.fst).Nodup) (h : (k, v) ∈ l) : dictLookup k l = some v := by
  induction l with
  | nil => cases h
  | cons p rest ih =>
    obtain ⟨k2, v2⟩ := p
    simp only [List.map_cons, List.nodup_cons] at hnd
    rcases List.mem_cons.1 h with h1 | h1
    · cases h1
      simp [dictLookup]
    · by_cases h2 : k2 = k
      · subst h2
        exact absurd (List.mem_map.2 ⟨(k2, v), h1, rfl⟩) hnd.1
      · simpa [dictLookup, h2] using ih hnd.2 h1

theorem pyUpper_eq_empty (s : String) : pyUpper s = "" ↔ s = "" := by
  obtain ⟨l⟩ := s
  constructor
  · intro h
    have hd : (pyUpper ⟨l⟩).data = ("" : String).data := congrArg String.data h
    simp only [pyUpper] at hd
    have : l.map Char.toUpper = [] := hd
    rcases l with _ | ⟨c, cs⟩
    · rfl
    · cases this
  · intro h
    rw [h]
    rfl

theorem insertDesc_mem (a b : Alert) (l : List Alert) :
    b ∈ insertDesc a l ↔ b = a ∨ b ∈ l := by
  induction l with
  | nil => simp [insertDesc]
  | cons c rest ih =>
    by_cases h : c.ratio ≤ a.ratio
    · rw [insertDesc, if_pos h]
      simp [List.mem_cons]
    · rw [insertDesc, if_neg h]
      simp only [List.mem_cons, ih]
      tauto

theorem insertDesc_ne_nil (a : Alert) (l : List Alert) : insertDesc a l ≠ [] := by
  cases l with
  | nil => simp [insertDesc]
  | cons c rest => by_cases h : c.ratio ≤ a.ratio <;> simp [insertDesc, h]

theorem sortDesc_mem (b : Alert) (l : List Alert) : b ∈ sortDesc l ↔ b ∈ l := by
  induction l with
  | nil => simp [sortDesc]
  | cons a rest ih =>
    rw [sortDesc, insertDesc_mem]
    simp [List.mem_cons, ih]

theorem sortDesc_eq_nil (l : List Alert) : sortDesc l = [] ↔ l = [] := by
  cases l with
  | nil => simp [sortDesc]
  | cons a rest =>
    rw [sortDesc]
    simp [insertDesc_ne_nil]

theorem insertDesc_pairwise {a : Alert} {l : List Alert}
    (h : l.Pairwise fun x y => y.ratio ≤ x.ratio) :
    (insertDesc a l).Pairwise fun x y => y.ratio ≤ x.ratio := by
  induction l with
  | nil => simp [insertDesc]
  | cons c rest ih =>
    obtain ⟨hc, hrest⟩ := List.pairwise_cons.1 h
    by_cases hle : c.ratio ≤ a.ratio
    · rw [insertDesc, if_pos hle]
      refine List.pairwise_cons.2 ⟨?_, h⟩
      intro b hb
      rcases List.mem_cons.1 hb with rfl | hb
      · exact hle
      · exact le_trans (hc b hb) hle
    · rw [insertDesc, if_neg hle]
      refine List.pairwise_cons.2 ⟨?_, ih hrest⟩
      intro b hb
      rcases (insertDesc_mem a b rest).1 hb with rfl | hb
      · exact le_of_lt (not_le.1 hle)
      · exact hc b hb

theorem sortDesc_pairwise (l : List Alert) :
    (sortDesc l).Pairwise fun x y => y.ratio ≤ x.ratio := by
  induction l with
  | nil => simp [sortDesc]
  | cons a rest ih =>
    rw [sortDesc]
    exact insertDesc_pairwise ih

theorem coinStep_mem (acc : List (String × CoinData)) (c : Coin) (k : String) :
    dictMem k (coinStep acc c) = true ↔
      (pyUpper (c.symbol.getD "") = k ∧ pyUpper (c.symbol.getD "") ≠ "" ∧
        ∃ mc, c.market_cap = some mc ∧ 0 < mc ∧ mc < MARKET_CAP_LIMIT) ∨
      dictMem k acc = true := by
  cases hmc : c.market_cap with
  | none => simp [coinStep, hmc]
  | some mc =>
    by_cases hsym : pyUpper (c.symbol.getD "") = ""
    · simp [coinStep, hmc, hsym]
    · by_cases hrange : 0 < mc ∧ mc < MARKET_CAP_LIMIT
      · simp only [coinStep, hmc, if_neg hsym, if_pos hrange, dictMem_dictInsert]
        simp [hsym, hrange]
      · simp only [coinStep, hmc, if_neg hsym, if_neg hrange]
        simp only [Option.some.injEq]
        constructor
        · intro h
          exact Or.inr h
        · rintro (⟨-, -, mc', rfl, hr⟩ | h)
          · exact absurd hr hrange
          · exact h

theorem coinStep_lookup_bound {acc : List (String × CoinData)} {c : Coin}
    (hacc : ∀ k v, dictLookup k acc = some v →
      0 < v.market_cap ∧ v.market_cap < MARKET_CAP_LIMIT)
    (k : String) (v : CoinData) (hv : dictLookup k (coinStep acc c) = some v) :
    0 < v.market_cap ∧ v.market_cap < MARKET_CAP_LIMIT := by
  rcases hmc : c.market_cap with - | mc
  · rw [coinStep, hmc] at hv
    exact hacc k v hv
  · by_cases hsym : pyUpper (c.symbol.getD "") = ""
    · simp only [coinStep, hmc, if_pos hsym] at hv
      exact hacc k v hv
    · by_cases hrange : 0 < mc ∧ mc < MARKET_CAP_LIMIT
      · simp only [coinStep, hmc, if_neg hsym, if_pos hrange, dictLookup_dictInsert] at hv
        by_cases hk : pyUpper (c.symbol.getD "") = k
        · rw [if_pos hk] at hv
          cases hv
          exact hrange
        · rw [if_neg hk] at hv
          exact hacc k v hv
      · simp only [coinStep, hmc, if_neg hsym, if_neg hrange] at hv
        exact hacc k v hv

theorem get_market_data_mem_aux (data : List Coin) :
    ∀ (acc : List (String × CoinData)) (k : String),
      dictMem k (data.foldl coinStep acc) = true ↔
        dictMem k acc = true ∨
        ∃ c ∈ data, pyUpper (c.symbol.getD "") = k ∧ pyUpper (c.symbol.getD "") ≠ "" ∧
          ∃ mc, c.market_cap = some mc ∧ 0 < mc ∧ mc < MARKET_CAP_LIMIT := by
  induction data with
  | nil => simp
  | cons c data ih =>
    intro acc k
    rw [List.foldl_cons, ih, coinStep_mem]
    simp only [List.mem_cons]
    constructor
    · rintro ((h | h) | h)
      · exact Or.inr ⟨c, Or.inl rfl, h⟩
      · exact Or.inl h
      · obtain ⟨c', hc', hq⟩ := h
        exact Or.inr ⟨c', Or.inr hc', hq⟩
    · rintro (h | ⟨c', (rfl | hc'), hq⟩)
      · exact Or.inl (Or.inr h)
      · exact Or.inl (Or.inl hq)
      · exact Or.inr ⟨c', hc', hq⟩

theorem get_market_data_bounds_aux (data : List Coin) :
    ∀ (acc : List (String × CoinData)),
      (∀ k v, dictLookup k acc = some v →
        0 < v.market_cap ∧ v.market_cap < MARKET_CAP_LIMIT) →
      ∀ k v, dictLookup k (data.foldl coinStep acc) = some v →
        0 < v.market_cap ∧ v.market_cap < MARKET_CAP_LIMIT := by
  induction data with
  | nil =>
    intro acc hacc
    simpa using hacc
  | cons c data ih =>
    intro acc hacc
    rw [List.foldl_cons]
    exact ih (coinStep acc c) (coinStep_lookup_bound hacc)

theorem alertStep_mem (oiData : List (String × ℚ)) (t : ℚ) (alerts : List Alert)
    (p : String × CoinData) (a : Alert) :
    a ∈ alertStep oiData t alerts p ↔ a ∈ alerts ∨
      ∃ oi, dictLookup p.1 oiData = some oi ∧ 0 < p.2.market_cap ∧
        t < oi / p.2.market_cap ∧
        a = ⟨p.1, oi / p.2.market_cap, p.2.market_cap, oi⟩ := by
  cases ho : dictLookup p.1 oiData with
  | none => simp [alertStep, ho]
  | some oi =>
    by_cases hmc : p.2.market_cap ≤ 0
    · have hnpos : ¬ 0 < p.2.market_cap := not_lt.2 hmc
      simp [alertStep, ho, if_pos hmc, hnpos]
    · have hpos : 0 < p.2.market_cap := not_le.1 hmc
      by_cases ht : t < oi / p.2.market_cap
      · simp only [alertStep, ho, if_neg hmc, if_pos ht, List.mem_append,
          List.mem_singleton, Option.some.injEq]
        constructor
        · rintro (h | rfl)
          · exact Or.inl h
          · exact Or.inr ⟨oi, rfl, hpos, ht, rfl⟩
        · rintro (h | ⟨oi', rfl, -, -, rfl⟩)
          · exact Or.inl h
          · exact Or.inr rfl
      · simp only [alertStep, ho, if_neg hmc, if_neg ht, Option.some.injEq]
        constructor
        · exact Or.inl
        · rintro (h | ⟨oi', rfl, -, ht', -⟩)
          · exact h
          · exact absurd ht' ht

theorem computeAlerts_mem_aux (oiData : List (String × ℚ)) (t : ℚ)
    (caps : List (String × CoinData)) :
    ∀ (init : List Alert) (a : Alert),
      a ∈ caps.foldl (alertStep oiData t) init ↔
        a ∈ init ∨ ∃ p ∈ caps, ∃ oi, dictLookup p.1 oiData = some oi ∧
          0 < p.2.market_cap ∧ t < oi / p.2.market_cap ∧
          a = ⟨p.1, oi / p.2.market_cap, p.2.market_cap, oi⟩ := by
  induction caps with
  | nil => simp
  | cons p caps ih =>
    intro init a
    rw [List.foldl_cons, ih, alertStep_mem]
    simp only [List.mem_cons]
    constructor
    · rintro ((h | h) | h)
      · exact Or.inl h
      · exact Or.inr ⟨p, Or.inl rfl, h⟩
      · obtain ⟨p', hp', hq⟩ := h
        exact Or.inr ⟨p', Or.inr hp', hq⟩
    · rintro (h | ⟨p', (rfl | hp'), hq⟩)
      · exact Or.inl (Or.inl h)
      · exact Or.inl (Or.inr hq)
      · exact Or.inr ⟨p', hp', hq⟩

theorem computeAlerts_mem (caps : List (String × CoinData)) (oiData : List (String × ℚ))
    (t : ℚ) (a : Alert) :
    a ∈ computeAlerts caps oiData t ↔
      ∃ p ∈ caps, ∃ oi, dictLookup p.1 oiData = some oi ∧
        0 < p.2.market_cap ∧ t < oi / p.2.market_cap ∧
        a = ⟨p.1, oi / p.2.market_cap, p.2.market_cap, oi⟩ := by
  rw [computeAlerts, computeAlerts_mem_aux]
  simp

theorem symStep_requests (fetch : String → OiResponse) (acc : List (String × ℚ))
    (sym : String) : requestsOf (symStep fetch acc sym).2 = [sym] := by
  cases h : fetch sym <;> simp [symStep, h, requestsOf]

theorem requestsOf_append (l1 l2 : List Ev) :
    requestsOf (l1 ++ l2) = requestsOf l1 ++ requestsOf l2 := by
  simp [requestsOf, List.filterMap_append]

theorem phase2Loop_requests (fetch : String → OiResponse) :
    ∀ (syms : List String) (k : ℕ) (acc : List (String × ℚ)),
      requestsOf (phase2Loop fetch syms k acc).2 = syms := by
  intro syms
  induction syms with
  | nil => intro k acc; rfl
  | cons sym rest ih =>
    intro k acc
    simp only [phase2Loop, requestsOf_append, symStep_requests, ih]
    by_cases hb : k = 0 ∧ rest ≠ [] <;> simp [hb, requestsOf]

theorem symStep_fst_mem (fetch : String → OiResponse) (acc : List (String × ℚ))
    (sym : String) (key : String) :
    dictMem key (symStep fetch acc sym).1 = true ↔
      ((fetch sym).isOk = true ∧ normalizeSym sym = key) ∨ dictMem key acc = true := by
  cases h : fetch sym <;>
    simp [symStep, h, OiResponse.isOk, dictMem_dictInsert]

theorem phase2Loop_fst_mem (fetch : String → OiResponse) :
    ∀ (syms : List String) (k : ℕ) (acc : List (String × ℚ)) (key : String),
      dictMem key (phase2Loop fetch syms k acc).1 = true ↔
        dictMem key acc = true ∨
        ∃ sym ∈ syms, (fetch sym).isOk = true ∧ normalizeSym sym = key := by
  intro syms
  induction syms with
  | nil =>
    intro k acc key
    simp [phase2Loop]
  | cons sym rest ih =>
    intro k acc key
    simp only [phase2Loop]
    rw [ih, symStep_fst_mem]
    simp only [List.mem_cons]
    constructor
    · rintro ((h | h) | h)
      · exact Or.inr ⟨sym, Or.inl rfl, h⟩
      · exact Or.inl h
      · obtain ⟨s, hs, hq⟩ := h
        exact Or.inr ⟨s, Or.inr hs, hq⟩
    · rintro (h | ⟨s, (rfl | hs), hq⟩)
      · exact Or.inl (Or.inr h)
      · exact Or.inl (Or.inl hq)
      · exact Or.inr ⟨s, hs, hq⟩

theorem pyReplaceUSDT_append_usdt :
    ∀ e : List Char, hasUSDT e = false → pyReplaceUSDT (e ++ usdt) = e := by
  intro e
  induction e with
  | nil => intro h; rfl
  | cons c e' ih =>
    intro h
    rcases e' with - | ⟨c1, (- | ⟨c2, (- | ⟨c3, rest⟩)⟩)⟩
    · simp only [usdt, List.cons_append, List.nil_append]
      rw [pyReplaceUSDT, if_neg (by simp [usdt])]
      rfl
    · simp only [usdt, List.cons_append, List.nil_append]
      rw [pyReplaceUSDT, if_neg (by simp [usdt])]
      rw [pyReplaceUSDT, if_neg (by simp [usdt])]
      rfl
    · simp only [usdt, List.cons_append, List.nil_append]
      rw [pyReplaceUSDT, if_neg (by simp [usdt])]
      rw [pyReplaceUSDT, if_neg (by simp [usdt])]
      rw [pyReplaceUSDT, if_neg (by simp [usdt])]
      rfl
    · rw [hasUSDT] at h
      obtain ⟨h1, h2⟩ := Bool.or_eq_false_iff.1 h
      have hcond : ¬ ([c, c1, c2, c3] = usdt) := of_decide_eq_false h1
      have ht := ih h2
      simp only [List.cons_append] at ht ⊢
      rw [pyReplaceUSDT, if_neg hcond, ht]

theorem dictMem_nil (k : String) : dictMem k ([] : List (String × α)) = false := rfl

theorem gapsOk_phase2Loop_no_apiError (fetch : String → OiResponse)
    (hf : ∀ s, fetch s ≠ OiResponse.apiError) :
    ∀ (syms : List String) (k : ℕ) (acc : List (String × ℚ)),
      gapsOkAux true (phase2Loop fetch syms k acc).2 = true := by
  intro syms
  induction syms with
  | nil => intro k acc; rfl
  | cons sym rest ih =>
    intro k acc
    cases h : fetch sym with
    | apiError => exact absurd h (hf sym)
    | transportError =>
      by_cases hb : k = 0 ∧ rest ≠ [] <;>
        simp [phase2Loop, symStep, h, hb, gapsOkAux, ih]
    | emptyList =>
      by_cases hb : k = 0 ∧ rest ≠ [] <;>
        simp [phase2Loop, symStep, h, hb, gapsOkAux, ih]
    | ok oiv usd =>
      by_cases hb : k = 0 ∧ rest ≠ [] <;>
        simp [phase2Loop, symStep, h, hb, gapsOkAux, ih]

/-- Claim C1: every alert produced by the evaluation loop of
`check_oi_ratio` (lines 141-150) concerns a symbol that is a key of both
input mappings, carries ratio equal to `oi_data[symbol]` divided by
`mc_data[symbol].market_cap`, and has ratio strictly greater than the
threshold; hence no alert with ratio ≤ threshold is ever produced.  The
`Nodup` hypothesis states that `caps` is a genuine mapping (a Python dict
has no duplicate keys). -/
theorem alert_join_and_threshold (caps : List (String × CoinData))
    (oiData : List (String × ℚ)) (threshold : ℚ)
    (hnd : (caps.map Prod.fst).Nodup) (a : Alert)
    (ha : a ∈ computeAlerts caps oiData threshold) :
    dictMem a.symbol caps = true ∧ dictMem a.symbol oiData = true ∧
    dictLookup a.symbol oiData = some a.oi ∧
    (∃ cd, dictLookup a.symbol caps = some cd ∧ cd.market_cap = a.mc) ∧
    a.ratio = a.oi / a.mc ∧ threshold < a.ratio := by
  obtain ⟨p, hp, oi, ho, hpos, ht, hEq⟩ := (computeAlerts_mem _ _ _ _).1 ha
  subst hEq
  obtain ⟨sym, cd⟩ := p
  refine ⟨dictMem_of_mem hp, ?_, ho, ⟨cd, dictLookup_of_nodup hnd hp, rfl⟩, rfl, ht⟩
  simp [dictMem, ho]

/-- Witness for C1: caps {AAA ↦ (market cap 5)}, oi {AAA ↦ 2},
threshold 1/4 produce the alert (AAA, 2/5, 5, 2). -/
theorem alert_join_and_threshold_witness :
    dictMem "AAA" capsW = true ∧ dictMem "AAA" oiW = true ∧
    dictLookup "AAA" oiW = some 2 ∧
    (∃ cd, dictLookup "AAA" capsW = some cd ∧ cd.market_cap = 5) ∧
    (2 / 5 : ℚ) = 2 / 5 ∧ (1 / 4 : ℚ) < 2 / 5 :=
  alert_join_and_threshold capsW oiW (1 / 4) (by decide) ⟨"AAA", 2 / 5, 5, 2⟩
    (by norm_num [computeAlerts, alertStep, dictLookup, capsW, oiW])

/-- Claim C2, evaluated at the failing input: when a response's
`retCode` is non-zero the `continue` on line 106 jumps past the
`time.sleep(0.12)` on line 115, so the trace of a two-symbol run whose
first response is an API error is two back-to-back requests with no
sleep between them — the mandatory ≈120 ms gap is skipped. -/
theorem rate_limit_delay_skipped :
    (get_all_bybit_oi_phase2 fetchApiError ["AAAUSDT", "BBBUSDT"]).2 =
      [Ev.request "AAAUSDT", Ev.request "BBBUSDT"] ∧
    gapsOk (get_all_bybit_oi_phase2 fetchApiError ["AAAUSDT", "BBBUSDT"]).2 = false :=
  ⟨rfl, rfl⟩

/-- Claim C3 counterexample: `"USDTUSDT"` ends in the quote suffix (it
is `"USDT" ++ "USDT"`), yet the normalization of line 112 maps it to
`""` rather than to `"USDT"` (the identifier with exactly one trailing
occurrence removed), because `str.replace` removes every occurrence. -/
theorem normalizeSym_counterexample :
    ("USDTUSDT" : String) = "USDT" ++ "USDT" ∧
    normalizeSym "USDTUSDT" = "" ∧ ("" : String) ≠ "USDT" :=
  ⟨rfl, by decide, by decide⟩

/-- Claim C3 amended: the normalization removes every leftmost,
non-overlapping occurrence of `"USDT"`, not just the trailing one; for
every identifier whose part before the trailing suffix contains no
occurrence of `"USDT"`, the result is exactly that part. -/
theorem normalizeSym_strips_clean_suffix (s : String)
    (h : hasUSDT s.data = false) : normalizeSym (s ++ "USDT") = s := by
  obtain ⟨l⟩ := s
  show String.mk (pyReplaceUSDT (String.mk l ++ "USDT").data) = String.mk l
  have hd : (String.mk l ++ "USDT").data = l ++ usdt := rfl
  rw [hd, pyReplaceUSDT_append_usdt l h]

/-- Witness for the amended C3 at the identifier `"BTCUSDT"`. -/
theorem normalizeSym_strips_clean_suffix_witness :
    normalizeSym ("BTC" ++ "USDT") = "BTC" :=
  normalizeSym_strips_clean_suffix "BTC" (by decide)

/-- Claim C4, evaluated: line 183 tests `_name_ == "_main_"`, but the
name `_name_` is never bound (the conventional guard is `__name__`), so
module execution raises `NameError` even when both secrets are present
and non-empty; a missing secret raises `EnvironmentError` first
(lines 15-16).  Startup therefore never succeeds. -/
theorem startup_always_raises :
    startup (some "token") (some "chatid") = Except.error StartupError.nameError ∧
    startup none (some "chatid") = Except.error StartupError.environmentError ∧
    startup (some "token") none = Except.error StartupError.environmentError :=
  ⟨rfl, rfl, rfl⟩

/-- Claim C5: `get_market_data` keeps exactly the response entries whose
symbol is non-empty, whose market cap is present, and whose market cap
lies strictly between 0 and `MARKET_CAP_LIMIT`, keyed by the uppercased
symbol; consequently every retained entry's market cap lies strictly
between 0 and the limit. -/
theorem get_market_data_spec (data : List Coin) :
    (∀ k, dictMem k (get_market_data data) = true ↔
      ∃ c ∈ data, c.symbol.getD "" ≠ "" ∧ pyUpper (c.symbol.getD "") = k ∧
        ∃ mc, c.market_cap = some mc ∧ 0 < mc ∧ mc < MARKET_CAP_LIMIT) ∧
    ∀ k v, dictLookup k (get_market_data data) = some v →
      0 < v.market_cap ∧ v.market_cap < MARKET_CAP_LIMIT := by
  constructor
  · intro k
    rw [get_market_data, get_market_data_mem_aux]
    simp only [dictMem_nil, Bool.false_eq_true, false_or]
    constructor
    · rintro ⟨c, hc, hk, hne, mc, hmc, h0, h1⟩
      exact ⟨c, hc, fun hE => hne ((pyUpper_eq_empty _).2 hE), hk, mc, hmc, h0, h1⟩
    · rintro ⟨c, hc, hne, hk, mc, hmc, h0, h1⟩
      exact ⟨c, hc, hk, fun hE => hne ((pyUpper_eq_empty _).1 hE), mc, hmc, h0, h1⟩
  · intro k v
    refine get_market_data_bounds_aux data [] ?_ k v
    intro k' v' h
    simp [dictLookup] at h

/-- Witness for C5 on `coinsW`: the coin with symbol "btc" and market
cap 5 is retained under key "BTC" and satisfies the bounds. -/
theorem get_market_data_spec_witness :
    (0 : ℚ) < 5 ∧ (5 : ℚ) < MARKET_CAP_LIMIT :=
  (get_market_data_spec coinsW).2 "BTC" ⟨"Bitcoin", 5⟩ (by decide)

/-- Claim C6: the alert sequence of `check_oi_ratio` after the sort on
line 153 is non-increasing in ratio: for all positions i < j, the ratio
at position j is at most the ratio at position i. -/
theorem alerts_sorted_descending (caps : List (String × CoinData))
    (oiData : List (String × ℚ)) (threshold : ℚ) (i j : ℕ) (hij : i < j)
    (hj : j < (evalSorted caps oiData threshold).length) :
    ((evalSorted caps oiData threshold).get ⟨j, hj⟩).ratio ≤
      ((evalSorted caps oiData threshold).get ⟨i, Nat.lt_trans hij hj⟩).ratio := by
  have hp := sortDesc_pairwise (computeAlerts caps oiData threshold)
  exact List.pairwise_iff_get.1 hp ⟨i, Nat.lt_trans hij hj⟩ ⟨j, hj⟩ hij

/-- Witness for C6: with `capsTwo`/`oiTwo` the sorted alerts are
[(BBB, ratio 1), (AAA, ratio 2/5)], and position 1's ratio is at most
position 0's. -/
theorem alerts_sorted_descending_witness :
    ((evalSorted capsTwo oiTwo (1 / 4)).get
        ⟨1, by norm_num [evalSorted, computeAlerts, alertStep, dictLookup,
          sortDesc, insertDesc, capsTwo, oiTwo]⟩).ratio ≤
      ((evalSorted capsTwo oiTwo (1 / 4)).get
        ⟨0, by norm_num [evalSorted, computeAlerts, alertStep, dictLookup,
          sortDesc, insertDesc, capsTwo, oiTwo]⟩).ratio :=
  alerts_sorted_descending capsTwo oiTwo (1 / 4) 0 1 (by decide)
    (by norm_num [evalSorted, computeAlerts, alertStep, dictLookup,
      sortDesc, insertDesc, capsTwo, oiTwo])

/-- Claim C7: the formatting/delivery step of `check_oi_ratio`
(lines 155-167) produces no message exactly when no alert qualified, and
any produced message is the 10-element prefix of the complete
descending-sorted alert list — at most 10 entries, truncated only after
every qualifying alert has been computed and sorted. -/
theorem formatter_empty_and_truncation (caps : List (String × CoinData))
    (oiData : List (String × ℚ)) (threshold : ℚ) :
    (renderMessage (evalSorted caps oiData threshold) = none ↔
      computeAlerts caps oiData threshold = []) ∧
    ∀ m, renderMessage (evalSorted caps oiData threshold) = some m →
      m = (evalSorted caps oiData threshold).take 10 ∧ m.length ≤ 10 := by
  have hiff : (evalSorted caps oiData threshold).isEmpty = true ↔
      computeAlerts caps oiData threshold = [] := by
    rw [List.isEmpty_iff]
    exact sortDesc_eq_nil _
  constructor
  · constructor
    · intro hn
      by_contra hne
      have hE : ¬ (evalSorted caps oiData threshold).isEmpty = true :=
        fun hE => hne (hiff.1 hE)
      rw [renderMessage, if_neg hE] at hn
      cases hn
    · intro hc
      rw [renderMessage, if_pos (hiff.2 hc)]
  · intro m hm
    rw [renderMessage] at hm
    by_cases hE : (evalSorted caps oiData threshold).isEmpty = true
    · rw [if_pos hE] at hm
      cases hm
    · rw [if_neg hE] at hm
      cases hm
      refine ⟨rfl, ?_⟩
      rw [List.length_take]
      exact min_le_left _ _

/-- Witness for C7: the one-alert run on `capsW`/`oiW` renders a message
equal to the 10-prefix of the sorted list, with at most 10 entries. -/
theorem formatter_empty_and_truncation_witness :
    [(⟨"AAA", 2 / 5, 5, 2⟩ : Alert)] = (evalSorted capsW oiW (1 / 4)).take 10 ∧
    [(⟨"AAA", 2 / 5, 5, 2⟩ : Alert)].length ≤ 10 :=
  (formatter_empty_and_truncation capsW oiW (1 / 4)).2 [⟨"AAA", 2 / 5, 5, 2⟩]
    (by norm_num [renderMessage, evalSorted, computeAlerts, alertStep,
      dictLookup, sortDesc, insertDesc, capsW, oiW])

/-- Claim C8: in phase 2 of `get_all_bybit_oi`, every discovered symbol
is attempted (exactly one request each, in order) no matter how other
symbols fail, and the returned mapping has a key exactly when some
symbol whose fetch succeeded normalizes to that key — transport errors,
non-zero retCodes and empty result lists add no entry and abort
nothing. -/
theorem phase2_partial_failure (fetch : String → OiResponse) (symbols : List String) :
    requestsOf (get_all_bybit_oi_phase2 fetch symbols).2 = symbols ∧
    ∀ key, dictMem key (get_all_bybit_oi_phase2 fetch symbols).1 = true ↔
      ∃ sym ∈ symbols, (fetch sym).isOk = true ∧ normalizeSym sym = key := by
  refine ⟨phase2Loop_requests fetch symbols 9 [], ?_⟩
  intro key
  rw [get_all_bybit_oi_phase2, phase2Loop_fst_mem]
  simp [dictMem_nil]

/-- Claim C9: if either fetched mapping is empty, `check_oi_ratio`
returns at one of the two early returns (lines 134-139): the outcome is
a skip outcome and no message is delivered, for every threshold. -/
theorem empty_source_short_circuit (mcData : List (String × CoinData))
    (oiData : List (String × ℚ)) (threshold : ℚ)
    (h : mcData = [] ∨ oiData = []) :
    (check_oi_ratio mcData oiData threshold = RunOutcome.skippedNoMc ∨
      check_oi_ratio mcData oiData threshold = RunOutcome.skippedNoOi) ∧
    deliveredMessage (check_oi_ratio mcData oiData threshold) = none := by
  rcases h with rfl | rfl
  · simp [check_oi_ratio, deliveredMessage]
  · by_cases hmc : mcData.isEmpty = true <;>
      simp [check_oi_ratio, hmc, deliveredMessage]

/-- Witness for C9, the spec's scenario 3: caps empty, oi = {AAA ↦ 2},
threshold 1/4 — skip outcome, nothing delivered. -/
theorem empty_source_short_circuit_witness :
    (check_oi_ratio [] oiW (1 / 4) = RunOutcome.skippedNoMc ∨
      check_oi_ratio [] oiW (1 / 4) = RunOutcome.skippedNoOi) ∧
    deliveredMessage (check_oi_ratio [] oiW (1 / 4)) = none :=
  empty_source_short_circuit [] oiW (1 / 4) (Or.inl rfl)

/-- Claim C10: the `mc <= 0` guard on lines 146-147 precedes the
division, so every produced alert has strictly positive market cap and
its ratio is the quotient of its open interest by that market cap —
evaluation never divides by a non-positive market cap, even when the
caps mapping violates the positivity invariant. -/
theorem division_always_guarded (caps : List (String × CoinData))
    (oiData : List (String × ℚ)) (threshold : ℚ) (a : Alert)
    (ha : a ∈ computeAlerts caps oiData threshold) :
    0 < a.mc ∧ a.ratio = a.oi / a.mc := by
  obtain ⟨p, hp, oi, ho, hpos, ht, rfl⟩ := (computeAlerts_mem _ _ _ _).1 ha
  exact ⟨hpos, rfl⟩

/-- Witness for C10 on `capsG`/`oiG`, where the caps mapping holds a
zero-market-cap entry (skipped) and the produced alert has positive
market cap. -/
theorem division_always_guarded_witness :
    (0 : ℚ) < 5 ∧ (2 / 5 : ℚ) = 2 / 5 :=
  division_always_guarded capsG oiG (1 / 4) ⟨"AAA", 2 / 5, 5, 2⟩
    (by
      have hz : ("ZRO" : String) ≠ "AAA" := by decide
      norm_num [computeAlerts, alertStep, dictLookup, capsG, oiG, hz])

end Bot2
